import Mathlib

/-
Verification of the DG core and turbulence-model fragments of the solver.

Shallow embedding conventions:
- `Scalar` (a C++ double) is modelled as `ℚ`; the claims settled here are
  structural (which factors are multiplied, which cells are written, which
  indices are read), so exact arithmetic is adequate.
- Mesh fields (linearly addressable storage) are modelled as `List α`;
  an in-place write `cF[i] = v` is `List.set` (out-of-range writes are
  dropped, matching the in-range usage of the source).
- The signed loop counter `i` of `DG::expand` is represented by the natural
  number `i1 = i + 1`, so the loop guard `i >= 0` becomes `i1 ≠ 0` and the
  decrement `i -= block` becomes truncated subtraction `i1 - block`.
- The recursion of the expansion loop is driven by a fuel argument equal to
  the initial `i1`; since every iteration decreases `i1` by `block ≥ 1`,
  the fuel never expires in any execution the source performs (the source
  would not terminate for `block = 0`).
-/

namespace DG

/-- The INDEX4 macro of dg.h: flattens (component, i, j, k) against the
order triple (NPX, NPY, NPZ):
`(c) * NPX * NPY * NPZ + (i) * NPY * NPZ + (j) * NPZ + (k)`. -/
def INDEX4 (NPX NPY NPZ c i j k : Nat) : Nat :=
  c * NPX * NPY * NPZ + i * NPY * NPZ + j * NPZ + k

/-- The INDEX3 macro of dg.h: component-free positional flattening
`(i) * NPY * NPZ + (j) * NPZ + (k)`. -/
def INDEX3 (NPY NPZ i j k : Nat) : Nat :=
  i * NPY * NPZ + j * NPZ + k

/-- A 3-component vector, the `Vector` value built by the DPSI macro. -/
structure Vector3 where
  x : ℚ
  y : ℚ
  z : ℚ
deriving DecidableEq

/-- Component accessor for `Vector3`, direction m ∈ {0,1,2}. -/
def Vector3.comp (v : Vector3) (m : Fin 3) : ℚ :=
  if m.val = 0 then v.x else if m.val = 1 then v.y else v.z

/-- The DPSI macro of dg.h: the reference-space gradient vector of the
tensor-product basis function (ii,jj,kk) at the tensor-product node (i,j,k).
The 1-D tables `psi` and `dpsi` are indexed by direction, basis index and
node index, exactly as the global `Scalar **psi[3]`, `Scalar **dpsi[3]`. -/
def DPSI (psi dpsi : Fin 3 → Nat → Nat → ℚ) (ii jj kk i j k : Nat) : Vector3 :=
  let dpsi_j_0 := dpsi 0 ii i * psi 1 jj j * psi 2 kk k
  let dpsi_j_1 := psi 0 ii i * dpsi 1 jj j * psi 2 kk k
  let dpsi_j_2 := psi 0 ii i * psi 1 jj j * dpsi 2 kk k
  Vector3.mk dpsi_j_0 dpsi_j_1 dpsi_j_2

/-- The product-rule factor the spec describes: along direction `dir`,
take the 1-D derivative table when `dir` is the gradient direction `m`,
and the plain value table otherwise. -/
def gradFactor (psi dpsi : Fin 3 → Nat → Nat → ℚ) (m dir : Fin 3)
    (b n : Nat) : ℚ :=
  if dir = m then dpsi dir b n else psi dir b n

/-- The two entity kinds `DG::expand` dispatches on. -/
inductive ENTITY where
  | CELL
  | FACET
deriving DecidableEq

/-- The block-size selection of `DG::expand`:
`if(entity == CELL) block = NP; else if(entity == FACET) block = NPF;`. -/
def blockSize (entity : ENTITY) (NP NPF : Nat) : Nat :=
  match entity with
  | ENTITY.CELL => NP
  | ENTITY.FACET => NPF

/-- The inner loop of `DG::expand`:
`for(Int j = 0; j < block; j++) cF[i - j] = C;`. -/
def writeBlock {α : Type} (f : List α) (i block : Nat) (C : α) : List α :=
  (List.range block).foldl (fun g j => g.set (i - j) C) f

/-- The destination indices the inner loop writes, in program order
(`i - j` for `j = 0, …, block-1`). -/
def writeIndices (i block : Nat) : List Nat :=
  (List.range block).map (fun j => i - j)

/-- The outer loop of `DG::expand`, fuel-driven (see file header):
`for(int i = cF.size()-1; i >= 0; i -= block) { Int ii = i/block;
type C = cF[ii]; … }` with `i1 = i + 1`. -/
def expandGo {α : Type} [Inhabited α] (block : Nat) :
    Nat → List α → Nat → List α
  | 0, f, _ => f
  | fuel + 1, f, i1 =>
    if i1 = 0 then f
    else
      let i := i1 - 1
      let ii := i / block
      let C := f.getD ii default
      expandGo block fuel (writeBlock f i block C) (i1 - block)

/-- The whole expansion loop started at `i = size - 1`. -/
def expandLoop {α : Type} [Inhabited α] (block : Nat) (f : List α) : List α :=
  expandGo block f.length f f.length

/-- `DG::expand`: guarded by `if(DG::NPMAT)`, selects the block size from
the entity kind and runs the backward expansion loop over the storage. -/
def expand {α : Type} [Inhabited α] (NPMAT NP NPF : Nat) (entity : ENTITY)
    (cF : List α) : List α :=
  if NPMAT ≠ 0 then
    expandLoop (blockSize entity NP NPF) cF
  else cF

/-- Instrumented expansion loop recording, per outer iteration, the source
index `ii` read, the destination indices written, and the value `C` read;
same control flow and state as `expandGo`. -/
def expandGoTr {α : Type} [Inhabited α] (block : Nat) :
    Nat → List α → Nat → List (Nat × List Nat × α)
  | 0, _, _ => []
  | fuel + 1, f, i1 =>
    if i1 = 0 then []
    else
      let i := i1 - 1
      let ii := i / block
      let C := f.getD ii default
      (ii, writeIndices i block, C) :: expandGoTr block fuel (writeBlock f i block C) (i1 - block)

/-- Trace of a whole expansion pass over `f`. -/
def expandTrace {α : Type} [Inhabited α] (block : Nat) (f : List α) :
    List (Nat × List Nat × α) :=
  expandGoTr block f.length f f.length

/-- Modelled from the spec: the global `DG::NPMAT` (defined outside the
core slice, in dg.cpp) is the size of the expansion table, which is not
allocated when the configured order implies a single node per element;
it is zero exactly when `NP == 1`. Only its zero/nonzero status is
observed by `DG::expand`. -/
def NPMAT_of (NP : Nat) : Nat :=
  if NP = 1 then 0 else 1

end DG

namespace Turb

/-- A symmetric 3×3 tensor by its six independent components, the
`STensor` of the field layer. -/
structure STensor where
  xx : ℚ
  yy : ℚ
  zz : ℚ
  xy : ℚ
  yz : ℚ
  xz : ℚ
deriving DecidableEq

/-- Modelled from the spec: the `STensor(Scalar)` constructor of the field
layer (field.h, outside the core slice) fills every component with the
given scalar, so `STensor(0)` is the zero symmetric tensor. -/
def STensor.ofScalar (s : ℚ) : STensor :=
  STensor.mk s s s s s s

/-- The zero symmetric tensor. -/
def STensor.zero : STensor :=
  STensor.mk 0 0 0 0 0 0

/-- Modelled from the spec: conversion of a single tensor value to an
`STensorCellField` (field.h, outside the core slice) yields the constant
per-cell field. -/
def constCellField (t : STensor) : Nat → STensor :=
  fun _ => t

/-- State of the base `Turbulence_Model` (laminar default): the references
it holds. `U` is the velocity field, `F` the face flux field. -/
structure Turbulence_Model where
  U : Nat → DG.Vector3
  F : Nat → ℚ
  rho : ℚ
  nu : ℚ
  Steady : Bool

/-- `Turbulence_Model::getReynoldsStress`: `return STensor(0);`. -/
def Turbulence_Model.getReynoldsStress (_tm : Turbulence_Model) :
    Nat → STensor :=
  constCellField (STensor.ofScalar 0)

/-- `Turbulence_Model::getK`: `return Scalar(0);` as a constant cell field. -/
def Turbulence_Model.getK (_tm : Turbulence_Model) : Nat → ℚ :=
  fun _ => (0 : ℚ)

/-- The wall-model selector of `EddyViscosity_Model`. -/
inductive WallModel where
  | NONE
  | STANDARD
  | LAUNDER
deriving DecidableEq

/-- Environment of `KX_Model::applyWallFunction`: mesh connectivity and
geometry accessors, the law-of-wall helpers, the model coefficients and
the virtual hooks, all opaque to this claim. `junk` stands for the
indeterminate value of the uninitialized `ustar` when `wallModel` is
`NONE` (a path the source never takes with a wall model configured). -/
structure KXEnv where
  gFO : Nat → Nat
  gFN : Nat → Nat
  wallDist : Nat → Nat → Nat → ℚ
  magU : Nat → ℚ
  mag_dudy_of : Nat → Nat → ℚ → ℚ
  getUstar : ℚ → ℚ → ℚ → ℚ
  getUp : ℚ → ℚ → ℚ → ℚ
  kappa : ℚ
  getCmu : Nat → ℚ
  calcX : ℚ → ℚ → ℚ → ℚ
  sqrtQ : ℚ → ℚ
  powQ : ℚ → ℚ → ℚ
  rho : ℚ
  nu : ℚ
  junk : ℚ

/-- The four mutable per-cell fields `applyWallFunction` can touch. -/
structure KXFields where
  k : Nat → ℚ
  x : Nat → ℚ
  Pk : Nat → ℚ
  eddy_mu : Nat → ℚ

/-- Pointwise field update: `field[c] = v`. -/
def upd (g : Nat → ℚ) (c : Nat) (v : ℚ) : Nat → ℚ :=
  fun n => if n = c then v else g n

/-- `KX_Model::applyWallFunction` (turbulence.h lines 223-250), with the
wall model passed explicitly and every external helper drawn from `env`.
The statement order of the source is preserved: the `ustar`/`k` branch,
then `x[c1]`, then `eddy_mu[c1]`, then the LAUNDER-only `Pk[c1]` which
reads the just-written `eddy_mu[c1]`. -/
def applyWallFunction (env : KXEnv) (wm : WallModel) (f : Nat)
    (s : KXFields) : KXFields :=
  let c1 := env.gFO f
  let c2 := env.gFN f
  let y := env.wallDist f c1 c2
  let ustar : ℚ :=
    if wm = WallModel.STANDARD then
      env.getUstar env.nu (env.magU c1) y
    else if wm = WallModel.LAUNDER then
      env.powQ (env.getCmu c1) (1/4) * env.sqrtQ (s.k c1)
    else env.junk
  let k1 :=
    if wm = WallModel.STANDARD then
      upd s.k c1 (env.powQ ustar 2 / env.sqrtQ (env.getCmu c1))
    else s.k
  let x1 := upd s.x c1 (env.calcX ustar env.kappa y)
  let yp := ustar * y / env.nu
  let up := env.getUp ustar env.nu yp
  let emu1 := upd s.eddy_mu c1 (env.rho * env.nu * (yp / up - 1))
  let Pk1 :=
    if wm = WallModel.LAUNDER then
      let mag_dudy := env.mag_dudy_of c2 c1 y
      let mag_dudy_log := ustar / (env.kappa * y)
      upd s.Pk c1 (mag_dudy * mag_dudy_log * emu1 c1)
    else s.Pk
  KXFields.mk k1 x1 Pk1 emu1

end Turb

namespace DG

/-- `List.set` seen through `List.getD`: the write lands iff the index is
the written one and in range. -/
lemma getD_set {α : Type} (l : List α) (m : Nat) (v : α) (s : Nat) (d : α) :
    (l.set m v).getD s d = if s = m ∧ m < l.length then v else l.getD s d := by
  by_cases hs : s < l.length
  · have hs' : s < (l.set m v).length := by simpa using hs
    rw [List.getD_eq_getElem _ _ hs', List.getD_eq_getElem _ _ hs,
      List.getElem_set]
    by_cases hm : m = s
    · subst hm
      simp [hs]
    · have hcond : ¬(s = m ∧ m < l.length) := by
        rintro ⟨rfl, _⟩
        exact hm rfl
      simp [hm, hcond]
  · have h1 : l.length ≤ s := le_of_not_lt hs
    have h2 : (l.set m v).length ≤ s := by simpa using h1
    rw [List.getD_eq_default _ _ h2, List.getD_eq_default _ _ h1]
    have hcond : ¬(s = m ∧ m < l.length) := by
      rintro ⟨rfl, h⟩
      exact hs h
    simp [hcond]

/-- The inner write loop does not change the storage size. -/
lemma length_writeBlock {α : Type} (f : List α) (i b : Nat) (C : α) :
    (writeBlock f i b C).length = f.length := by
  unfold writeBlock
  generalize List.range b = l
  induction l generalizing f with
  | nil => rfl
  | cons a t ih =>
    rw [List.foldl_cons, ih, List.length_set]

/-- Unrolling the inner write loop by its last iteration. -/
lemma writeBlock_succ {α : Type} (f : List α) (i b : Nat) (C : α) :
    writeBlock f i (b + 1) C = (writeBlock f i b C).set (i - b) C := by
  unfold writeBlock
  rw [List.range_succ, List.foldl_append]
  rfl

/-- Effect of the inner write loop on every slot: for `b ≤ i + 1` it sets
exactly the in-range slots of the interval `[i + 1 - b, i]` to `C`. -/
lemma writeBlock_getD {α : Type} (f : List α) (i b : Nat) (C : α)
    (hbi : b ≤ i + 1) (s : Nat) (d : α) :
    (writeBlock f i b C).getD s d =
      if i + 1 - b ≤ s ∧ s ≤ i ∧ s < f.length then C else f.getD s d := by
  induction b with
  | zero =>
    have hcond : ¬(i + 1 - 0 ≤ s ∧ s ≤ i ∧ s < f.length) := by omega
    simp only [writeBlock, List.range_zero, List.foldl_nil, hcond, if_false]
  | succ b ih =>
    rw [writeBlock_succ, getD_set, length_writeBlock, ih (by omega)]
    by_cases h1 : s = i - b ∧ i - b < f.length
    · have hc : i + 1 - (b + 1) ≤ s ∧ s ≤ i ∧ s < f.length := by omega
      rw [if_pos h1, if_pos hc]
    · by_cases h2 : i + 1 - b ≤ s ∧ s ≤ i ∧ s < f.length
      · have hc : i + 1 - (b + 1) ≤ s ∧ s ≤ i ∧ s < f.length := by omega
        rw [if_neg h1, if_pos h2, if_pos hc]
      · have hc : ¬(i + 1 - (b + 1) ≤ s ∧ s ≤ i ∧ s < f.length) := by omega
        rw [if_neg h1, if_neg h2, if_neg hc]

/-- The expansion loop does not change the storage size. -/
lemma length_expandGo {α : Type} [Inhabited α] (block fuel : Nat) :
    ∀ (f : List α) (i1 : Nat), (expandGo block fuel f i1).length = f.length := by
  induction fuel with
  | zero =>
    intro f i1
    rfl
  | succ fuel ih =>
    intro f i1
    by_cases h : i1 = 0
    · simp [expandGo, h]
    · simp only [expandGo, h, if_false]
      rw [ih, length_writeBlock]

/-- Characterization of the expansion loop started at `i1 = m * block` on a
storage of at least that size: afterwards slot `s` below the start holds the
original value of slot `s / block` and every other slot is untouched.
The fuel only needs to cover the `m` iterations performed. -/
lemma expandGo_getD {α : Type} [Inhabited α] (block : Nat) (hb : 0 < block) :
    ∀ (m fuel : Nat), m ≤ fuel → ∀ (f : List α), m * block ≤ f.length →
      ∀ s : Nat,
        (expandGo block fuel f (m * block)).getD s default =
          if s < m * block then f.getD (s / block) default
          else f.getD s default := by
  intro m
  induction m with
  | zero =>
    intro fuel _ f _ s
    cases fuel with
    | zero => simp [expandGo]
    | succ fl => simp [expandGo]
  | succ m ih =>
    intro fuel hf f hlen s
    obtain ⟨fl, rfl⟩ : ∃ fl, fuel = fl + 1 := ⟨fuel - 1, by omega⟩
    have hsm : (m + 1) * block = m * block + block := Nat.succ_mul m block
    have h0 : ¬(m + 1) * block = 0 := by omega
    have e1 : (m + 1) * block - 1 = m * block + (block - 1) := by omega
    have e2 : (m + 1) * block - block = m * block := by omega
    have e3 : (m * block + (block - 1)) / block = m := by
      rw [show m * block + (block - 1) = (block - 1) + block * m by ring,
        Nat.add_mul_div_left _ _ hb, Nat.div_eq_of_lt (by omega)]
      omega
    simp only [expandGo, h0, if_false]
    rw [e1, e3, e2]
    set g := writeBlock f (m * block + (block - 1)) block (f.getD m default)
      with hg
    have hlg : g.length = f.length := length_writeBlock _ _ _ _
    have hlen' : m * block ≤ g.length := by
      rw [hlg]
      omega
    rw [ih fl (by omega) g hlen' s]
    have hwb : ∀ t d, g.getD t d =
        if m * block ≤ t ∧ t ≤ m * block + (block - 1) ∧ t < f.length then
          f.getD m default
        else f.getD t d := by
      intro t d
      rw [hg, writeBlock_getD f _ block _ (by omega) t d,
        show m * block + (block - 1) + 1 - block = m * block by omega]
    have hmb : m ≤ m * block := Nat.le_mul_of_pos_right m hb
    by_cases hs1 : s < m * block
    · have hd : s / block < m := (Nat.div_lt_iff_lt_mul hb).mpr hs1
      rw [if_pos hs1, if_pos (by omega : s < (m + 1) * block), hwb,
        if_neg (by omega)]
    · by_cases hs2 : s < (m + 1) * block
      · have hsb : s / block = m := Nat.div_eq_of_lt_le (by omega) hs2
        rw [if_neg hs1, if_pos hs2, hwb, if_pos (by omega), hsb]
      · rw [if_neg hs1, if_neg hs2, hwb, if_neg (by omega)]

/-- Membership in the destination-index list of one inner loop. -/
lemma mem_writeIndices (i b d : Nat) :
    d ∈ writeIndices i b ↔ ∃ j, j < b ∧ i - j = d := by
  simp [writeIndices]

/-- The trace of the expansion loop started at `i1 = m * block`: it visits
elements `m-1, m-2, …, 0` in that order; for element `e` it reads source
index `e`, still holding its original value, and writes the destinations
`writeIndices (e * block + (block - 1)) block`. -/
lemma expandGoTr_eq {α : Type} [Inhabited α] (block : Nat) (hb : 0 < block) :
    ∀ (m fuel : Nat), m ≤ fuel → ∀ (f : List α), m * block ≤ f.length →
      expandGoTr block fuel f (m * block) =
        ((List.range m).reverse).map
          (fun e =>
            (e, writeIndices (e * block + (block - 1)) block,
              f.getD e default)) := by
  intro m
  induction m with
  | zero =>
    intro fuel _ f _
    cases fuel with
    | zero => simp [expandGoTr]
    | succ fl => simp [expandGoTr]
  | succ m ih =>
    intro fuel hf f hlen
    obtain ⟨fl, rfl⟩ : ∃ fl, fuel = fl + 1 := ⟨fuel - 1, by omega⟩
    have hsm : (m + 1) * block = m * block + block := Nat.succ_mul m block
    have h0 : ¬(m + 1) * block = 0 := by omega
    have e1 : (m + 1) * block - 1 = m * block + (block - 1) := by omega
    have e2 : (m + 1) * block - block = m * block := by omega
    have e3 : (m * block + (block - 1)) / block = m := by
      rw [show m * block + (block - 1) = (block - 1) + block * m by ring,
        Nat.add_mul_div_left _ _ hb, Nat.div_eq_of_lt (by omega)]
      omega
    simp only [expandGoTr, h0, if_false]
    rw [e1, e3, e2]
    set g := writeBlock f (m * block + (block - 1)) block (f.getD m default)
      with hg
    have hlg : g.length = f.length := length_writeBlock _ _ _ _
    have hlen' : m * block ≤ g.length := by
      rw [hlg]
      omega
    rw [ih fl (by omega) g hlen']
    rw [List.range_succ, List.reverse_append, List.reverse_singleton,
      List.singleton_append, List.map_cons]
    congr 1
    apply List.map_congr_left
    intro e he
    have he' : e < m := by
      rw [List.mem_reverse, List.mem_range] at he
      exact he
    have hmb : m ≤ m * block := Nat.le_mul_of_pos_right m hb
    have hge : g.getD e default = f.getD e default := by
      rw [hg, writeBlock_getD f _ block _ (by omega) e default,
        if_neg (by omega)]
    rw [hge]

/-- `DG::expand` does not change the storage size. -/
lemma length_expand {α : Type} [Inhabited α] (NPMAT NP NPF : Nat)
    (entity : ENTITY) (f : List α) :
    (expand NPMAT NP NPF entity f).length = f.length := by
  unfold expand expandLoop
  by_cases h : NPMAT ≠ 0
  · rw [if_pos h, length_expandGo]
  · rw [if_neg h]

/-- Characterization of `DG::expand` on a cell field whose size is
`E * NP`: slot `s` afterwards holds the original value of slot `s / NP`. -/
lemma expand_getD_cell {α : Type} [Inhabited α] (NPMAT NP NPF : Nat)
    (hM : NPMAT ≠ 0) (hNP : 0 < NP) (E : Nat) (f : List α)
    (hlen : f.length = E * NP) (s : Nat) :
    (expand NPMAT NP NPF ENTITY.CELL f).getD s default =
      if s < E * NP then f.getD (s / NP) default else f.getD s default := by
  unfold expand expandLoop blockSize
  rw [if_pos hM]
  simp only []
  rw [hlen]
  exact expandGo_getD NP hNP E (E * NP) (Nat.le_mul_of_pos_right E hNP) f
    (by rw [hlen]) s

end DG

namespace DG

/-- Uniqueness of quotient and remainder in one mixed-radix digit step. -/
lemma digit_inj (n a b r s : Nat) (hr : r < n) (hs : s < n)
    (h : a * n + r = b * n + s) : a = b ∧ r = s := by
  have hn : 0 < n := by omega
  have e1 : (n * a + r) % n = r := by
    rw [Nat.mul_add_mod]
    exact Nat.mod_eq_of_lt hr
  have e2 : (n * b + s) % n = s := by
    rw [Nat.mul_add_mod]
    exact Nat.mod_eq_of_lt hs
  have hc : n * a + r = n * b + s := by
    rw [show n * a = a * n by ring, show n * b = b * n by ring]
    exact h
  have hrs : r = s := by rw [← e1, ← e2, hc]
  refine ⟨?_, hrs⟩
  have hab : a * n = b * n := by omega
  exact Nat.eq_of_mul_eq_mul_right hn hab

/-- INDEX4 in Horner (nested mixed-radix) form. -/
lemma INDEX4_horner (NPX NPY NPZ c i j k : Nat) :
    INDEX4 NPX NPY NPZ c i j k = ((c * NPX + i) * NPY + j) * NPZ + k := by
  unfold INDEX4
  ring

/-- The positional flattening of an in-range (i,j,k) is below the slab
size. -/
lemma INDEX3_lt (NPX NPY NPZ i j k : Nat) (hi : i < NPX) (hj : j < NPY)
    (hk : k < NPZ) : INDEX3 NPY NPZ i j k < NPX * NPY * NPZ := by
  unfold INDEX3
  have h1 : (j + 1) * NPZ ≤ NPY * NPZ :=
    Nat.mul_le_mul_right NPZ (by omega : j + 1 ≤ NPY)
  have h2 : (i + 1) * (NPY * NPZ) ≤ NPX * (NPY * NPZ) :=
    Nat.mul_le_mul_right _ (by omega : i + 1 ≤ NPX)
  have e1 : (j + 1) * NPZ = j * NPZ + NPZ := Nat.succ_mul j NPZ
  have e2 : (i + 1) * (NPY * NPZ) = i * (NPY * NPZ) + NPY * NPZ :=
    Nat.succ_mul _ _
  have e3 : i * (NPY * NPZ) = i * NPY * NPZ := by ring
  have e4 : NPX * (NPY * NPZ) = NPX * NPY * NPZ := by ring
  omega

/-- C1: for a field packing one representative value per element at the
low addresses (value of element e at linear index e), with block size
NP >= 1 dividing the field size and the expansion table present, `expand`
leaves every node slot e*NP+j (j < NP) of element e holding exactly the
original representative value of element e. -/
theorem expand_fills_element_nodes {α : Type} [Inhabited α]
    (NPMAT NP NPF : Nat) (hM : NPMAT ≠ 0) (hNP : 0 < NP) (E : Nat)
    (f : List α) (hlen : f.length = E * NP) (e j : Nat) (he : e < E)
    (hj : j < NP) :
    (expand NPMAT NP NPF ENTITY.CELL f).getD (e * NP + j) default
      = f.getD e default := by
  rw [expand_getD_cell NPMAT NP NPF hM hNP E f hlen (e * NP + j)]
  have hsm : (e + 1) * NP = e * NP + NP := Nat.succ_mul e NP
  have hle : (e + 1) * NP ≤ E * NP :=
    Nat.mul_le_mul_right NP (by omega : e + 1 ≤ E)
  rw [if_pos (by omega)]
  have hdiv : (e * NP + j) / NP = e :=
    Nat.div_eq_of_lt_le (by omega) (by omega)
  rw [hdiv]

/-- Concrete instance of `expand_fills_element_nodes` (NP = 8, two
elements, node slot 5 of element 1). -/
theorem expand_fills_element_nodes_witness :
    (1 : Nat) ≠ 0 ∧ 0 < 8 ∧
      ([3, 7, 0, 0, 0, 0, 0, 0, 0, 0, 0, 0, 0, 0, 0, 0] : List Nat).length
        = 2 * 8 ∧
      (expand 1 8 0 ENTITY.CELL
          ([3, 7, 0, 0, 0, 0, 0, 0, 0, 0, 0, 0, 0, 0, 0, 0] : List Nat)).getD
          (1 * 8 + 5) default
        = ([3, 7, 0, 0, 0, 0, 0, 0, 0, 0, 0, 0, 0, 0, 0, 0] : List Nat).getD
            1 default :=
  ⟨by decide, by decide, by decide,
    expand_fills_element_nodes 1 8 0 (by decide) (by decide) 2 _ (by decide)
      1 5 (by decide) (by decide)⟩

/-- C2: the INDEX4 map on in-range tuples is bounded by, injective on, and
surjective onto [0, NC*NPX*NPY*NPZ), and k is fastest-varying (consecutive
k values map to consecutive offsets). -/
theorem INDEX4_bijective_row_major (NC NPX NPY NPZ : Nat)
    (hc : 1 ≤ NC) (hx : 1 ≤ NPX) (hy : 1 ≤ NPY) (hz : 1 ≤ NPZ) :
    (∀ c i j k, c < NC → i < NPX → j < NPY → k < NPZ →
      INDEX4 NPX NPY NPZ c i j k < NC * NPX * NPY * NPZ)
    ∧ (∀ c i j k c2 i2 j2 k2, c < NC → i < NPX → j < NPY → k < NPZ →
        c2 < NC → i2 < NPX → j2 < NPY → k2 < NPZ →
        INDEX4 NPX NPY NPZ c i j k = INDEX4 NPX NPY NPZ c2 i2 j2 k2 →
        c = c2 ∧ i = i2 ∧ j = j2 ∧ k = k2)
    ∧ (∀ n, n < NC * NPX * NPY * NPZ →
        ∃ c i j k, c < NC ∧ i < NPX ∧ j < NPY ∧ k < NPZ ∧
          INDEX4 NPX NPY NPZ c i j k = n)
    ∧ (∀ c i j k, INDEX4 NPX NPY NPZ c i j (k + 1)
        = INDEX4 NPX NPY NPZ c i j k + 1) := by
  refine ⟨?_, ?_, ?_, ?_⟩
  · intro c i j k hc2 hi hj hk
    have hI : INDEX4 NPX NPY NPZ c i j k
        = c * (NPX * NPY * NPZ) + INDEX3 NPY NPZ i j k := by
      unfold INDEX4 INDEX3
      ring
    have h3 := INDEX3_lt NPX NPY NPZ i j k hi hj hk
    have hstep : (c + 1) * (NPX * NPY * NPZ)
        = c * (NPX * NPY * NPZ) + NPX * NPY * NPZ := Nat.succ_mul _ _
    have hle : (c + 1) * (NPX * NPY * NPZ) ≤ NC * (NPX * NPY * NPZ) :=
      Nat.mul_le_mul_right _ (by omega : c + 1 ≤ NC)
    have hfix : NC * (NPX * NPY * NPZ) = NC * NPX * NPY * NPZ := by ring
    omega
  · intro c i j k c2 i2 j2 k2 hc1 hi1 hj1 hk1 hc2 hi2 hj2 hk2 heq
    rw [INDEX4_horner, INDEX4_horner] at heq
    obtain ⟨hA, hkk⟩ := digit_inj NPZ _ _ _ _ hk1 hk2 heq
    obtain ⟨hB, hjj⟩ := digit_inj NPY _ _ _ _ hj1 hj2 hA
    obtain ⟨hC, hii⟩ := digit_inj NPX _ _ _ _ hi1 hi2 hB
    exact ⟨hC, hii, hjj, hkk⟩
  · intro n hn
    refine ⟨n / NPZ / NPY / NPX, n / NPZ / NPY % NPX, n / NPZ % NPY,
      n % NPZ, ?_, Nat.mod_lt _ hx, Nat.mod_lt _ hy, Nat.mod_lt _ hz, ?_⟩
    · rw [Nat.div_div_eq_div_mul, Nat.div_div_eq_div_mul]
      refine (Nat.div_lt_iff_lt_mul ?_).mpr ?_
      · exact Nat.mul_pos hz (Nat.mul_pos hy hx)
      · calc n < NC * NPX * NPY * NPZ := hn
          _ = NC * (NPZ * (NPY * NPX)) := by ring
    · rw [INDEX4_horner, Nat.div_add_mod', Nat.div_add_mod',
        Nat.div_add_mod']
  · intro c i j k
    unfold INDEX4
    ring

/-- Concrete instance of `INDEX4_bijective_row_major` at
NC = NPX = NPY = NPZ = 2. -/
theorem INDEX4_bijective_row_major_witness :
    1 ≤ 2 ∧
      ((∀ c i j k, c < 2 → i < 2 → j < 2 → k < 2 →
        INDEX4 2 2 2 c i j k < 2 * 2 * 2 * 2)
      ∧ (∀ c i j k c2 i2 j2 k2, c < 2 → i < 2 → j < 2 → k < 2 →
          c2 < 2 → i2 < 2 → j2 < 2 → k2 < 2 →
          INDEX4 2 2 2 c i j k = INDEX4 2 2 2 c2 i2 j2 k2 →
          c = c2 ∧ i = i2 ∧ j = j2 ∧ k = k2)
      ∧ (∀ n, n < 2 * 2 * 2 * 2 →
          ∃ c i j k, c < 2 ∧ i < 2 ∧ j < 2 ∧ k < 2 ∧
            INDEX4 2 2 2 c i j k = n)
      ∧ (∀ c i j k, INDEX4 2 2 2 c i j (k + 1)
          = INDEX4 2 2 2 c i j k + 1)) :=
  ⟨by decide, INDEX4_bijective_row_major 2 2 2 2 (by decide) (by decide)
    (by decide) (by decide)⟩

/-- C3 counterexample: expanding twice is NOT the same as expanding once;
with NP = 2 on the packed field [0, 1, 2, 3] one pass gives [0, 0, 1, 1]
but a second pass then gives [0, 0, 0, 0], because the first pass
overwrote the representative slots that the second pass reads. -/
theorem expand_twice_ne_expand_once :
    expand 1 2 0 ENTITY.CELL
        (expand 1 2 0 ENTITY.CELL ([0, 1, 2, 3] : List Nat))
      ≠ expand 1 2 0 ENTITY.CELL ([0, 1, 2, 3] : List Nat) := by decide

/-- C3 (amended): expanding twice yields the same storage as expanding
once provided the representative values are consistent under a further
block division, i.e. the value at slot e/NP equals the value at slot e for
every element index e (as holds when NP = 1 or when all representatives
are equal). -/
theorem expand_idempotent_of_consistent_reps {α : Type} [Inhabited α]
    (NPMAT NP NPF : Nat) (hM : NPMAT ≠ 0) (hNP : 0 < NP) (E : Nat)
    (f : List α) (hlen : f.length = E * NP)
    (hrep : ∀ e, e < E → f.getD (e / NP) default = f.getD e default) :
    expand NPMAT NP NPF ENTITY.CELL (expand NPMAT NP NPF ENTITY.CELL f)
      = expand NPMAT NP NPF ENTITY.CELL f := by
  have hlen1 : (expand NPMAT NP NPF ENTITY.CELL f).length = f.length :=
    length_expand _ _ _ _ _
  refine List.ext_getElem ?_ ?_
  · rw [length_expand, hlen1]
  · intro n h1 h2
    have hnf : n < f.length := by
      rw [hlen1] at h2
      exact h2
    have hnE : n < E * NP := by omega
    rw [← List.getD_eq_getElem _ default h1, ← List.getD_eq_getElem _ default h2]
    rw [expand_getD_cell NPMAT NP NPF hM hNP E
      (expand NPMAT NP NPF ENTITY.CELL f) (by rw [hlen1, hlen]) n]
    rw [if_pos hnE]
    have hdn : n / NP < E := (Nat.div_lt_iff_lt_mul hNP).mpr hnE
    have hEP : E ≤ E * NP := Nat.le_mul_of_pos_right E hNP
    rw [expand_getD_cell NPMAT NP NPF hM hNP E f hlen (n / NP)]
    rw [if_pos (by omega)]
    rw [expand_getD_cell NPMAT NP NPF hM hNP E f hlen n, if_pos hnE]
    exact hrep (n / NP) hdn

/-- Concrete instance of `expand_idempotent_of_consistent_reps` (NP = 2,
two elements, equal representatives). -/
theorem expand_idempotent_of_consistent_reps_witness :
    (1 : Nat) ≠ 0 ∧ 0 < 2 ∧ ([5, 5, 1, 2] : List Nat).length = 2 * 2 ∧
      (∀ e, e < 2 → ([5, 5, 1, 2] : List Nat).getD (e / 2) default
        = ([5, 5, 1, 2] : List Nat).getD e default) ∧
      expand 1 2 0 ENTITY.CELL
          (expand 1 2 0 ENTITY.CELL ([5, 5, 1, 2] : List Nat))
        = expand 1 2 0 ENTITY.CELL ([5, 5, 1, 2] : List Nat) :=
  ⟨by decide, by decide, by decide, by decide,
    expand_idempotent_of_consistent_reps 1 2 0 (by decide) (by decide) 2 _
      (by decide) (by decide)⟩

/-- C4: the expansion pass visits elements strictly from the highest
linear storage index downward ([E-1, ..., 0]); for element e every
destination index is at least e (the source index), the destinations are
exactly e*NP .. e*NP+NP-1, and the value read for element e is the
original representative (none is overwritten before it is read). -/
theorem expand_backward_pass_no_overwrite {α : Type} [Inhabited α]
    (NP : Nat) (hNP : 0 < NP) (E : Nat) (f : List α)
    (hlen : f.length = E * NP) :
    (expandTrace NP f).map (fun p => p.1) = (List.range E).reverse
    ∧ (∀ p ∈ expandTrace NP f, ∀ d ∈ p.2.1, p.1 ≤ d)
    ∧ (∀ p ∈ expandTrace NP f, ∀ d,
        d ∈ p.2.1 ↔ p.1 * NP ≤ d ∧ d < p.1 * NP + NP)
    ∧ (∀ p ∈ expandTrace NP f, p.2.2 = f.getD p.1 default) := by
  have htr : expandTrace NP f =
      ((List.range E).reverse).map
        (fun e => (e, writeIndices (e * NP + (NP - 1)) NP,
          f.getD e default)) := by
    unfold expandTrace
    rw [hlen]
    exact expandGoTr_eq NP hNP E (E * NP) (Nat.le_mul_of_pos_right E hNP) f
      (by rw [hlen])
  refine ⟨?_, ?_, ?_, ?_⟩
  · rw [htr, List.map_map]
    have hcomp : ((List.range E).reverse).map
        ((fun p : Nat × List Nat × α => p.1) ∘
          fun e => (e, writeIndices (e * NP + (NP - 1)) NP,
            f.getD e default))
        = ((List.range E).reverse).map (fun e => e) := rfl
    rw [hcomp]
    exact List.map_id' _
  · intro p hp d hd
    rw [htr, List.mem_map] at hp
    obtain ⟨e, he, rfl⟩ := hp
    obtain ⟨q, hq, rfl⟩ := (mem_writeIndices _ _ _).mp hd
    have hmb : e ≤ e * NP := Nat.le_mul_of_pos_right e hNP
    show e ≤ e * NP + (NP - 1) - q
    omega
  · intro p hp d
    rw [htr, List.mem_map] at hp
    obtain ⟨e, he, rfl⟩ := hp
    show d ∈ writeIndices (e * NP + (NP - 1)) NP ↔
      e * NP ≤ d ∧ d < e * NP + NP
    rw [mem_writeIndices]
    constructor
    · rintro ⟨q, hq, rfl⟩
      omega
    · rintro ⟨hd1, hd2⟩
      exact ⟨e * NP + (NP - 1) - d, by omega, by omega⟩
  · intro p hp
    rw [htr, List.mem_map] at hp
    obtain ⟨e, he, rfl⟩ := hp
    rfl

/-- Concrete instance of `expand_backward_pass_no_overwrite` (NP = 2, two
elements). -/
theorem expand_backward_pass_no_overwrite_witness :
    0 < 2 ∧ ([10, 20, 30, 40] : List Nat).length = 2 * 2 ∧
      ((expandTrace 2 ([10, 20, 30, 40] : List Nat)).map (fun p => p.1)
          = (List.range 2).reverse
        ∧ (∀ p ∈ expandTrace 2 ([10, 20, 30, 40] : List Nat),
            ∀ d ∈ p.2.1, p.1 ≤ d)
        ∧ (∀ p ∈ expandTrace 2 ([10, 20, 30, 40] : List Nat), ∀ d,
            d ∈ p.2.1 ↔ p.1 * 2 ≤ d ∧ d < p.1 * 2 + 2)
        ∧ (∀ p ∈ expandTrace 2 ([10, 20, 30, 40] : List Nat),
            p.2.2 = ([10, 20, 30, 40] : List Nat).getD p.1 default)) :=
  ⟨by decide, by decide,
    expand_backward_pass_no_overwrite 2 (by decide) 2 _ (by decide)⟩

/-- C5: the m-th component of the DPSI gradient vector is the product of
the 1-D derivative factor in direction m with the plain 1-D value factors
in the other two directions. -/
theorem DPSI_tensor_product_rule (psi dpsi : Fin 3 → Nat → Nat → ℚ)
    (ii jj kk i j k : Nat) (m : Fin 3) :
    (DPSI psi dpsi ii jj kk i j k).comp m =
      gradFactor psi dpsi m 0 ii i * gradFactor psi dpsi m 1 jj j *
        gradFactor psi dpsi m 2 kk k := by
  fin_cases m <;> simp [DPSI, Vector3.comp, gradFactor]

/-- C6: with a single node per element (NP = 1, hence no expansion table,
NPMAT = 0), `expand` leaves the field unchanged. -/
theorem expand_noop_of_single_node {α : Type} [Inhabited α]
    (NP NPF : Nat) (hNP : NP = 1) (entity : ENTITY) (f : List α) :
    expand (NPMAT_of NP) NP NPF entity f = f := by
  subst hNP
  simp [expand, NPMAT_of]

/-- Concrete instance of `expand_noop_of_single_node`. -/
theorem expand_noop_of_single_node_witness :
    (1 : Nat) = 1 ∧
      expand (NPMAT_of 1) 1 3 ENTITY.CELL ([4, 5, 6] : List Nat)
        = [4, 5, 6] :=
  ⟨rfl, expand_noop_of_single_node 1 3 rfl ENTITY.CELL [4, 5, 6]⟩

/-- C7: `expand` selects block NP for a CELL field and block NPF for a
FACET field, and runs the expansion loop with exactly that block size. -/
theorem expand_block_selection {α : Type} [Inhabited α]
    (NPMAT NP NPF : Nat) (hM : NPMAT ≠ 0) (f : List α) :
    blockSize ENTITY.CELL NP NPF = NP
    ∧ blockSize ENTITY.FACET NP NPF = NPF
    ∧ expand NPMAT NP NPF ENTITY.CELL f = expandLoop NP f
    ∧ expand NPMAT NP NPF ENTITY.FACET f = expandLoop NPF f := by
  refine ⟨rfl, rfl, ?_, ?_⟩ <;> simp [expand, blockSize, hM]

/-- Concrete instance of `expand_block_selection`. -/
theorem expand_block_selection_witness :
    (1 : Nat) ≠ 0 ∧
      (blockSize ENTITY.CELL 2 3 = 2
        ∧ blockSize ENTITY.FACET 2 3 = 3
        ∧ expand 1 2 3 ENTITY.CELL ([4, 5] : List Nat) = expandLoop 2 [4, 5]
        ∧ expand 1 2 3 ENTITY.FACET ([4, 5] : List Nat)
            = expandLoop 3 [4, 5]) :=
  ⟨by decide, expand_block_selection 1 2 3 (by decide) [4, 5]⟩

/-- C8: INDEX4 is the positional 3-tuple flattening INDEX3 offset by a
whole component stride, so component c occupies the contiguous slab
[c*NPX*NPY*NPZ, (c+1)*NPX*NPY*NPZ) and consecutive components occupy
disjoint slabs of size NPX*NPY*NPZ. -/
theorem INDEX4_component_slab (NC NPX NPY NPZ c i j k : Nat)
    (hc : c < NC) (hi : i < NPX) (hj : j < NPY) (hk : k < NPZ) :
    INDEX4 NPX NPY NPZ c i j k
        = c * (NPX * NPY * NPZ) + INDEX3 NPY NPZ i j k
    ∧ c * (NPX * NPY * NPZ) ≤ INDEX4 NPX NPY NPZ c i j k
    ∧ INDEX4 NPX NPY NPZ c i j k < (c + 1) * (NPX * NPY * NPZ)
    ∧ (c + 1) * (NPX * NPY * NPZ) ≤ NC * (NPX * NPY * NPZ) := by
  have hI : INDEX4 NPX NPY NPZ c i j k
      = c * (NPX * NPY * NPZ) + INDEX3 NPY NPZ i j k := by
    unfold INDEX4 INDEX3
    ring
  have h3 := INDEX3_lt NPX NPY NPZ i j k hi hj hk
  have hstep : (c + 1) * (NPX * NPY * NPZ)
      = c * (NPX * NPY * NPZ) + NPX * NPY * NPZ := Nat.succ_mul _ _
  exact ⟨hI, by omega, by omega,
    Nat.mul_le_mul_right _ (by omega : c + 1 ≤ NC)⟩

/-- Concrete instance of `INDEX4_component_slab`. -/
theorem INDEX4_component_slab_witness :
    ((1 : Nat) < 2 ∧ 1 < 2 ∧ 2 < 3 ∧ 3 < 4) ∧
      (INDEX4 2 3 4 1 1 2 3 = 1 * (2 * 3 * 4) + INDEX3 3 4 1 2 3
        ∧ 1 * (2 * 3 * 4) ≤ INDEX4 2 3 4 1 1 2 3
        ∧ INDEX4 2 3 4 1 1 2 3 < (1 + 1) * (2 * 3 * 4)
        ∧ (1 + 1) * (2 * 3 * 4) ≤ 2 * (2 * 3 * 4)) :=
  ⟨by decide, INDEX4_component_slab 2 2 3 4 1 1 2 3 (by decide) (by decide)
    (by decide) (by decide)⟩

end DG

namespace Turb

/-- C9: the base (laminar) turbulence model returns the zero symmetric
tensor from getReynoldsStress and zero from getK at every cell. -/
theorem laminar_zero_reynolds_and_k (tm : Turbulence_Model) (c : Nat) :
    tm.getReynoldsStress c = STensor.zero ∧ tm.getK c = 0 :=
  ⟨rfl, rfl⟩

/-- C10: frame effects of `KX_Model::applyWallFunction` at the
wall-adjacent cell c1 = gFO[f]. In STANDARD mode k[c1] is set to
ustar^2 / sqrt(Cmu) and Pk is untouched; in LAUNDER mode k is untouched
(only read, through ustar = Cmu^(1/4) * sqrt(k[c1]), visible in the value
stored in x[c1]) and Pk[c1] is written; in both modes x[c1] and
eddy_mu[c1] are written. -/
theorem applyWallFunction_frame (env : KXEnv) (f : Nat) (s : KXFields) :
    ((applyWallFunction env WallModel.STANDARD f s).k
        = upd s.k (env.gFO f)
            (env.powQ
              (env.getUstar env.nu (env.magU (env.gFO f))
                (env.wallDist f (env.gFO f) (env.gFN f))) 2
              / env.sqrtQ (env.getCmu (env.gFO f))))
    ∧ ((applyWallFunction env WallModel.STANDARD f s).Pk = s.Pk)
    ∧ (∃ v, (applyWallFunction env WallModel.STANDARD f s).x
        = upd s.x (env.gFO f) v)
    ∧ (∃ v, (applyWallFunction env WallModel.STANDARD f s).eddy_mu
        = upd s.eddy_mu (env.gFO f) v)
    ∧ ((applyWallFunction env WallModel.LAUNDER f s).k = s.k)
    ∧ ((applyWallFunction env WallModel.LAUNDER f s).x
        = upd s.x (env.gFO f)
            (env.calcX
              (env.powQ (env.getCmu (env.gFO f)) (1 / 4)
                * env.sqrtQ (s.k (env.gFO f)))
              env.kappa (env.wallDist f (env.gFO f) (env.gFN f))))
    ∧ (∃ v, (applyWallFunction env WallModel.LAUNDER f s).Pk
        = upd s.Pk (env.gFO f) v)
    ∧ (∃ v, (applyWallFunction env WallModel.LAUNDER f s).eddy_mu
        = upd s.eddy_mu (env.gFO f) v) := by
  exact ⟨rfl, rfl, ⟨_, rfl⟩, ⟨_, rfl⟩, rfl, rfl, ⟨_, rfl⟩, ⟨_, rfl⟩⟩

end Turb
